import Mathlib

/-!
# Verification of the irks interrupt-information parsers and pipeline

Shallow embedding of the Go package `irks` (files `irksome.go`,
`irksome_details.go`, the byte-cursor `bytestring`, and the sequential
reference `AllIRQDetailsTraditional`), together with theorems settling the
frozen claims about the package.

Modelling conventions:
* Byte strings are `List Nat` (each element an octet value).
* The cursor type `bytestring` of the source holds an immutable buffer `b`
  and a mutable position `pos`; since only `pos` ever changes, each method
  is embedded as a function of the buffer and the current position that
  returns its results together with the new position.
* Go's `uint64`/`uint` arithmetic is modelled on `Nat` with an explicit
  reduction modulo 2^64 where the source can overflow.
* Loops that advance the position are embedded with an explicit fuel
  argument (structural recursion); the top-level entry points pass
  `b.length + 1` fuel, which always exceeds the number of loop iterations
  because every continuing iteration advances the position by at least one.
* A Go runtime panic (out-of-range slice write) is modelled by `GoResult.panic`.
-/

/-- Bytes of a string literal, for writing concrete test inputs. -/
def strBytes (s : String) : List Nat := s.data.map Char.toNat

/-- Modulus of Go's `uint64`/`uint` arithmetic (2^64). -/
def M64 : Nat := 18446744073709551616

/-- Outcome of running a piece of Go code that can panic at runtime. -/
inductive GoResult (α : Type) : Type
| ok (val : α) : GoResult α
| panic : GoResult α
deriving Repr, DecidableEq

/-- Decides whether a byte is an ASCII decimal digit (the `'0' ≤ ch ≤ '9'`
test of `bytestring.Uint64`). -/
def isDigitByte (c : Nat) : Bool := decide (48 ≤ c ∧ c ≤ 57)

namespace bytestring

/-- Embedding of `bytestring.EOL`: the position has reached the end of the
buffer. -/
def EOL (b : List Nat) (pos : Nat) : Bool := decide (pos ≥ b.length)

/-- Position after the skip loop of `bytestring.SkipSpace`: the loop
advances `pos` while the current byte is a space (0x20), so it stops after
the maximal run of spaces starting at `pos`. -/
def skipSpacePos (b : List Nat) (pos : Nat) : Nat :=
  pos + ((b.drop pos).takeWhile (fun c => decide (c = 32))).length

/-- Embedding of `bytestring.SkipSpace`: skips spaces, returns `true`
exactly when the end of the buffer was reached while skipping, together
with the new position. -/
def SkipSpace (b : List Nat) (pos : Nat) : Bool × Nat :=
  (decide (skipSpacePos b pos ≥ b.length), skipSpacePos b pos)

/-- Embedding of `bytestring.SkipText`: if the bytes at the current
position equal `s`, advance past them; otherwise leave the position
unchanged. -/
def SkipText (b : List Nat) (pos : Nat) (s : List Nat) : Bool × Nat :=
  if pos ≥ b.length ∨ pos + s.length > b.length then (false, pos)
  else if (b.drop pos).take s.length = s then (true, pos + s.length)
  else (false, pos)

/-- Digit-accumulation loop of `bytestring.Uint64` (the `for` loop after
the first digit): consumes digits while present, accumulating
`num = num*10 + digit` in `uint64` arithmetic. The fuel only bounds the
number of iterations; callers pass enough for the loop to reach its own
exit condition. -/
def Uint64Loop : Nat → List Nat → Nat → Nat → Nat × Nat
  | 0, _, pos, num => (num, pos)
  | fuel + 1, b, pos, num =>
    if pos ≥ b.length then (num, pos)
    else
      let ch := b.getD pos 0
      if ch < 48 ∨ 57 < ch then (num, pos)
      else Uint64Loop fuel b (pos + 1) ((num * 10 + (ch - 48)) % M64)

/-- Embedding of `bytestring.Uint64`: parses the number starting at the
current position until a non-digit or the end of the buffer; requires at
least one digit. Returns `((num, ok), newPos)`. -/
def Uint64 (b : List Nat) (pos : Nat) : (Nat × Bool) × Nat :=
  if pos ≥ b.length then ((0, false), pos)
  else
    let ch := b.getD pos 0
    if ch < 48 ∨ 57 < ch then ((0, false), pos)
    else
      let r := Uint64Loop (b.length + 1) b (pos + 1) (ch - 48)
      ((r.1, true), r.2)

/-- Field-counting loop of `bytestring.NumFields`, one iteration per
field: skip spaces, stop at end, count one field, skip its non-space
bytes, repeat. Position is not mutated by the source method, so this is a
pure function of the buffer and start position. -/
def NumFieldsLoop : Nat → List Nat → Nat → Nat
  | 0, _, _ => 0
  | fuel + 1, b, pos =>
    let p1 := pos + ((b.drop pos).takeWhile (fun c => decide (c = 32))).length
    if p1 ≥ b.length then 0
    else
      let p2 := p1 + ((b.drop p1).takeWhile (fun c => decide (¬c = 32))).length
      1 + NumFieldsLoop fuel b p2

/-- Embedding of `bytestring.NumFields`. -/
def NumFields (b : List Nat) (pos : Nat) : Nat :=
  NumFieldsLoop (b.length + 1) b pos

/-- Modelled from the spec: `bytestring.Next` is called by `cpuList` but
its definition is not among the provided source files. Spec §4.1:
"next() -> (byte, ok): consumes and returns exactly one byte, or ok=false
at end of line." -/
def Next (b : List Nat) (pos : Nat) : (Nat × Bool) × Nat :=
  if pos ≥ b.length then ((0, false), pos)
  else ((b.getD pos 0, true), pos + 1)

end bytestring

example : bytestring.Uint64 (strBytes "7foo") 0 = ((7, true), 1) := by decide
example : bytestring.Uint64 (strBytes "1234567890123") 0 = ((1234567890123, true), 13) := by
  decide
example : bytestring.Uint64 (strBytes "foo") 0 = ((0, false), 0) := by decide
example : bytestring.NumFields (strBytes " F  BAR BAZ RATZ ") 0 = 4 := by decide
example : bytestring.NumFields (strBytes " ") 0 = 0 := by decide
example : bytestring.SkipSpace (strBytes "   foo") 0 = (false, 3) := by decide
example : bytestring.SkipSpace (strBytes "   ") 0 = (true, 3) := by decide
example : bytestring.SkipText (strBytes "foobar") 0 (strBytes "foo") = (true, 3) := by decide
example : bytestring.SkipText (strBytes "bar") 0 (strBytes "barz") = (false, 0) := by decide

/-- Embedding of the loop of `cpuList` (irksome.go / irksome_details.go).
One fuel unit corresponds to one iteration of the Go `for` loop. Go's
`break` inside a `switch` leaves only the switch, so:
* in the `default` case the loop continues at the byte after the consumed
  delimiter;
* in the `'-'` case with a failed second number the next iteration
  re-runs `EOL`/`Uint64` at the unchanged position and fails the same way,
  so the loop stops with the accumulated ranges;
* after a fully formed range, `Next` consumes one byte; only a missing
  byte (EOL) stops the loop, any other byte (`','` or not) lets the loop
  continue after it. -/
def cpuListAux : Nat → List Nat → Nat → List (Nat × Nat) → List (Nat × Nat)
  | 0, _, _, cpus => cpus
  | fuel + 1, b, pos, cpus =>
    if bytestring.EOL b pos then cpus
    else
      match bytestring.Uint64 b pos with
      | ((_, false), _) => cpus
      | ((f, true), p1) =>
        if bytestring.EOL b p1 then cpus ++ [(f, f)]
        else
          match bytestring.Next b p1 with
          | ((ch, _), p2) =>
            if ch = 44 then cpuListAux fuel b p2 (cpus ++ [(f, f)])
            else if ch = 45 then
              match bytestring.Uint64 b p2 with
              | ((_, false), _) => cpus
              | ((t, true), p3) =>
                match bytestring.Next b p3 with
                | ((_, false), _) => cpus ++ [(f, t)]
                | ((_, true), p4) => cpuListAux fuel b p4 (cpus ++ [(f, t)])
            else cpuListAux fuel b p2 cpus

/-- Embedding of `cpuList`: parses a `N,M-K,...` range list into the
`CPUAffinities` list of inclusive `(from, to)` pairs. Go's `uint(x)`
conversion of a `uint64` is the identity on a 64-bit platform, so the
parsed numbers are kept as produced by `Uint64`. -/
def cpuList (b : List Nat) : List (Nat × Nat) :=
  cpuListAux (b.length + 1) b 0 []

example : cpuList (strBytes "") = [] := by decide
example : cpuList (strBytes "a") = [] := by decide
example : cpuList (strBytes "42-") = [] := by decide
example : cpuList (strBytes "42!") = [] := by decide
example : cpuList (strBytes "42") = [(42, 42)] := by decide
example : cpuList (strBytes "42,666") = [(42, 42), (666, 666)] := by decide
example : cpuList (strBytes "42-666") = [(42, 666)] := by decide
example : cpuList (strBytes "42,44-45") = [(42, 42), (44, 45)] := by decide
example : cpuList (strBytes "42,44-45,666") = [(42, 42), (44, 45), (666, 666)] := by decide
example : cpuList (strBytes "42!7") = [(7, 7)] := by decide
example : cpuList (strBytes "42-45!7") = [(42, 45), (7, 7)] := by decide
example : cpuList (strBytes "5-3") = [(5, 3)] := by decide
example : cpuList (strBytes "1-3,42") = [(1, 3), (42, 42)] := by decide

/-- Maximal run of ASCII digit bytes starting at `pos`. -/
def digitRun (b : List Nat) (pos : Nat) : List Nat :=
  (b.drop pos).takeWhile isDigitByte

/-- Accumulated `uint64` value of the maximal digit run starting at `pos`,
folded exactly as `bytestring.Uint64` folds it. -/
def digitsVal (b : List Nat) (pos : Nat) : Nat :=
  List.foldl (fun n c => (n * 10 + (c - 48)) % M64) 0 (digitRun b pos)

/-- Closed form of the digit-accumulation loop of `bytestring.Uint64`: with
sufficient fuel it folds over the maximal digit run and advances the
position by the run's length. -/
theorem Uint64Loop_spec : ∀ (fuel : Nat) (b : List Nat) (pos num : Nat),
    b.length - pos < fuel →
    bytestring.Uint64Loop fuel b pos num =
      (List.foldl (fun n c => (n * 10 + (c - 48)) % M64) num ((b.drop pos).takeWhile isDigitByte),
       pos + ((b.drop pos).takeWhile isDigitByte).length) := by
  intro fuel
  induction fuel with
  | zero => intro b pos num h; omega
  | succ fuel ih =>
    intro b pos num h
    by_cases hpos : pos ≥ b.length
    · have hdrop : b.drop pos = [] := List.drop_eq_nil_of_le hpos
      simp [bytestring.Uint64Loop, hpos, hdrop]
    · push_neg at hpos
      have hdrop : b.drop pos = b[pos] :: b.drop (pos + 1) :=
        List.drop_eq_getElem_cons hpos
      have hgetD : b.getD pos 0 = b[pos] := List.getD_eq_getElem b 0 hpos
      by_cases hdig : b[pos] < 48 ∨ 57 < b[pos]
      · have htw : (b.drop pos).takeWhile isDigitByte = [] := by
          rw [hdrop]
          apply List.takeWhile_cons_of_neg
          simp only [isDigitByte, decide_eq_true_eq]
          omega
        simp only [bytestring.Uint64Loop, hgetD, htw]
        rw [if_neg (by omega), if_pos hdig]
        simp
      · push_neg at hdig
        have htw : (b.drop pos).takeWhile isDigitByte
            = b[pos] :: (b.drop (pos + 1)).takeWhile isDigitByte := by
          rw [hdrop]
          apply List.takeWhile_cons_of_pos
          simp only [isDigitByte, decide_eq_true_eq]
          omega
        have hrec := ih b (pos + 1) ((num * 10 + (b.getD pos 0 - 48)) % M64) (by omega)
        simp only [bytestring.Uint64Loop, hgetD] at hrec ⊢
        rw [if_neg (by omega), if_neg (by omega), hrec, htw]
        simp only [List.foldl_cons, List.length_cons]
        rw [Prod.mk.injEq]
        exact ⟨rfl, by omega⟩

/-- Claim C9: `bytestring.Uint64` succeeds if and only if at least one
ASCII digit is at the current position; on success it consumes exactly the
maximal run of digits (`digitRun`) and returns the accumulated decimal
value (in `uint64` arithmetic); on failure it returns `ok = false` and
leaves the position unchanged. -/
theorem Uint64_parse_spec (b : List Nat) (pos : Nat) :
    ((bytestring.Uint64 b pos).1.2 = true ↔
      pos < b.length ∧ isDigitByte (b.getD pos 0) = true)
    ∧ ((bytestring.Uint64 b pos).1.2 = true →
        (bytestring.Uint64 b pos).2 = pos + (digitRun b pos).length
        ∧ (bytestring.Uint64 b pos).1.1 = digitsVal b pos)
    ∧ ((bytestring.Uint64 b pos).1.2 = false →
        (bytestring.Uint64 b pos).2 = pos ∧ (bytestring.Uint64 b pos).1.1 = 0) := by
  by_cases hpos : pos ≥ b.length
  · have he : bytestring.Uint64 b pos = ((0, false), pos) := by
      simp only [bytestring.Uint64]
      rw [if_pos hpos]
    rw [he]
    exact ⟨⟨fun hc => by simp at hc, fun hc => absurd hc.1 (by omega)⟩,
      fun hc => by simp at hc, fun _ => ⟨rfl, rfl⟩⟩
  · push_neg at hpos
    by_cases hdig : b.getD pos 0 < 48 ∨ 57 < b.getD pos 0
    · have he : bytestring.Uint64 b pos = ((0, false), pos) := by
        simp only [bytestring.Uint64]
        rw [if_neg (by omega), if_pos hdig]
      rw [he]
      refine ⟨⟨fun hc => by simp at hc, fun hc => ?_⟩,
        fun hc => by simp at hc, fun _ => ⟨rfl, rfl⟩⟩
      have := hc.2
      simp only [isDigitByte, decide_eq_true_eq] at this
      omega
    · push_neg at hdig
      have hloop := Uint64Loop_spec (b.length + 1) b (pos + 1) (b.getD pos 0 - 48) (by omega)
      have he : bytestring.Uint64 b pos =
          ((List.foldl (fun n c => (n * 10 + (c - 48)) % M64) (b.getD pos 0 - 48)
              ((b.drop (pos + 1)).takeWhile isDigitByte), true),
            pos + 1 + ((b.drop (pos + 1)).takeWhile isDigitByte).length) := by
        simp only [bytestring.Uint64]
        rw [if_neg (by omega), if_neg (by omega), hloop]
      have hrun : digitRun b pos = b.getD pos 0 :: (b.drop (pos + 1)).takeWhile isDigitByte := by
        unfold digitRun
        rw [List.drop_eq_getElem_cons hpos, List.getD_eq_getElem b 0 hpos]
        apply List.takeWhile_cons_of_pos
        rw [← List.getD_eq_getElem b 0 hpos]
        simp only [isDigitByte, decide_eq_true_eq]
        omega
      have hval : digitsVal b pos =
          List.foldl (fun n c => (n * 10 + (c - 48)) % M64) (b.getD pos 0 - 48)
            ((b.drop (pos + 1)).takeWhile isDigitByte) := by
        unfold digitsVal
        rw [hrun, List.foldl_cons]
        have hm : (0 * 10 + (b.getD pos 0 - 48)) % M64 = b.getD pos 0 - 48 := by
          simp only [Nat.zero_mul, Nat.zero_add]
          apply Nat.mod_eq_of_lt
          simp only [M64]
          omega
        rw [hm]
      rw [he]
      refine ⟨⟨fun _ => ⟨hpos, by simp only [isDigitByte, decide_eq_true_eq]; omega⟩,
        fun _ => rfl⟩, fun _ => ⟨?_, ?_⟩, fun hc => by simp at hc⟩
      · rw [hrun]
        simp only [List.length_cons]
        omega
      · rw [hval]

/-- Helper consequences of a successful `Uint64` parse, used for the fuel
arguments of the surrounding loops: the position strictly advances and
stays within the buffer. -/
theorem Uint64_ok_pos_bounds (b : List Nat) (pos : Nat) (v p : Nat)
    (h : bytestring.Uint64 b pos = ((v, true), p)) : pos < p ∧ p ≤ b.length := by
  have hs := Uint64_parse_spec b pos
  have hok : (bytestring.Uint64 b pos).1.2 = true := by rw [h]
  have hdig := (hs.1.mp hok)
  have hsucc := hs.2.1 hok
  have hp : p = pos + (digitRun b pos).length := by
    rw [← hsucc.1, h]
  have hlen : (digitRun b pos).length ≤ b.length - pos := by
    have hsub : ((b.drop pos).takeWhile isDigitByte).length ≤ (b.drop pos).length :=
      (List.takeWhile_sublist isDigitByte).length_le
    unfold digitRun
    simp only [List.length_drop] at hsub ⊢
    omega
  have hpos1 : 0 < (digitRun b pos).length := by
    unfold digitRun
    rw [List.drop_eq_getElem_cons hdig.1]
    rw [List.takeWhile_cons_of_pos (by rw [← List.getD_eq_getElem b 0 hdig.1]; exact hdig.2)]
    simp
  omega

/-- Witness for claim C9 at the concrete input "7foo": the parse succeeds,
consumes exactly the single digit and returns its value. -/
theorem Uint64_parse_spec_witness :
    (bytestring.Uint64 (strBytes "7foo") 0).2 = 0 + (digitRun (strBytes "7foo") 0).length
    ∧ (bytestring.Uint64 (strBytes "7foo") 0).1.1 = digitsVal (strBytes "7foo") 0 :=
  (Uint64_parse_spec (strBytes "7foo") 0).2.1 (by decide)

/-- Claim C1 counterexample: the claim predicts that in "42!7" the token
`42` is discarded (true, it is not appended) and that no further tokens
are parsed, so the result would be `[]`; the code instead resumes parsing
after the consumed `'!'` (Go's `break` inside a `switch` leaves only the
switch, not the loop) and accepts the later token `7`. -/
theorem cpuList_no_resync_counterexample :
    cpuList (strBytes "42!7") = [(7, 7)] ∧ cpuList (strBytes "42!7") ≠ [] :=
  ⟨by decide, by decide⟩

/-- Claim C1 as amended: a numeric token is accepted only when followed by
end-of-input, `','`, or a fully formed `-<number>` range; a bare number
followed by any other byte is discarded, but parsing resumes at the byte
after the consumed delimiter (first conjunct, one loop iteration per fuel
unit); a `'-'` whose second number fails to parse discards the token and
stops the whole parse (second conjunct); a fully formed range followed by
a byte other than `','` is still appended and parsing also resumes after
that byte (third conjunct); the spec's concrete examples all hold, and
"42!7" illustrates the resumed parse. -/
theorem cpuList_discard_resync_spec :
    (∀ fuel b pos cpus v j, bytestring.Uint64 b pos = ((v, true), j) → j < b.length →
        b.getD j 0 ≠ 44 → b.getD j 0 ≠ 45 →
        cpuListAux (fuel + 1) b pos cpus = cpuListAux fuel b (j + 1) cpus)
    ∧ (∀ fuel b pos cpus v j, bytestring.Uint64 b pos = ((v, true), j) → j < b.length →
        b.getD j 0 = 45 → (bytestring.Uint64 b (j + 1)).1.2 = false →
        cpuListAux (fuel + 1) b pos cpus = cpus)
    ∧ (∀ fuel b pos cpus v j t k, bytestring.Uint64 b pos = ((v, true), j) → j < b.length →
        b.getD j 0 = 45 → bytestring.Uint64 b (j + 1) = ((t, true), k) → k < b.length →
        b.getD k 0 ≠ 44 →
        cpuListAux (fuel + 1) b pos cpus = cpuListAux fuel b (k + 1) (cpus ++ [(v, t)]))
    ∧ cpuList (strBytes "42,44-45,666") = [(42, 42), (44, 45), (666, 666)]
    ∧ cpuList (strBytes "42-") = []
    ∧ cpuList (strBytes "42!") = []
    ∧ cpuList (strBytes "") = []
    ∧ cpuList (strBytes "a") = []
    ∧ cpuList (strBytes "42!7") = [(7, 7)] := by
  refine ⟨?_, ?_, ?_, by decide, by decide, by decide, by decide, by decide, by decide⟩
  · intro fuel b pos cpus v j h hj h44 h45
    have hb := Uint64_ok_pos_bounds b pos v j h
    have heol1 : bytestring.EOL b pos = false := by
      simp only [bytestring.EOL, decide_eq_false_iff_not]
      omega
    have heol2 : bytestring.EOL b j = false := by
      simp only [bytestring.EOL, decide_eq_false_iff_not]
      omega
    have hnext : bytestring.Next b j = ((b.getD j 0, true), j + 1) := by
      simp only [bytestring.Next]
      rw [if_neg (by omega)]
    simp only [cpuListAux, heol1, h, heol2, hnext, Bool.false_eq_true, if_false]
    rw [if_neg h44, if_neg h45]
  · intro fuel b pos cpus v j h hj h45 hfail
    have hb := Uint64_ok_pos_bounds b pos v j h
    have heol1 : bytestring.EOL b pos = false := by
      simp only [bytestring.EOL, decide_eq_false_iff_not]
      omega
    have heol2 : bytestring.EOL b j = false := by
      simp only [bytestring.EOL, decide_eq_false_iff_not]
      omega
    have hnext : bytestring.Next b j = ((b.getD j 0, true), j + 1) := by
      simp only [bytestring.Next]
      rw [if_neg (by omega)]
    rcases hU : bytestring.Uint64 b (j + 1) with ⟨⟨t1, ok1⟩, k1⟩
    rw [hU] at hfail
    simp only at hfail
    subst hfail
    simp only [cpuListAux, heol1, h, heol2, hnext, Bool.false_eq_true, if_false, h45]
    rw [if_neg (by omega), if_pos trivial, hU]
  · intro fuel b pos cpus v j t k h hj h45 hU hk h44k
    have hb := Uint64_ok_pos_bounds b pos v j h
    have heol1 : bytestring.EOL b pos = false := by
      simp only [bytestring.EOL, decide_eq_false_iff_not]
      omega
    have heol2 : bytestring.EOL b j = false := by
      simp only [bytestring.EOL, decide_eq_false_iff_not]
      omega
    have hnext : bytestring.Next b j = ((b.getD j 0, true), j + 1) := by
      simp only [bytestring.Next]
      rw [if_neg (by omega)]
    have hnext2 : bytestring.Next b k = ((b.getD k 0, true), k + 1) := by
      simp only [bytestring.Next]
      rw [if_neg (by omega)]
    simp only [cpuListAux, heol1, h, heol2, hnext, hnext2, hU, Bool.false_eq_true, if_false,
      h45]
    rw [if_neg (by omega), if_pos trivial]

/-- Witness for the amended claim C1 at "42!7": one loop iteration on the
token `42` followed by `'!'` discards the token and continues at position
3, right after the `'!'`. -/
theorem cpuList_discard_resync_spec_witness :
    cpuListAux 5 (strBytes "42!7") 0 [] = cpuListAux 4 (strBytes "42!7") 3 [] :=
  cpuList_discard_resync_spec.1 4 (strBytes "42!7") 0 [] 42 2 (by decide) (by decide)
    (by decide) (by decide)

/-- Claim C5 counterexample: the parser performs no `from <= to` check, so
the input "5-3" yields the range `(5, 3)` with `from > to`. -/
theorem cpuList_range_order_counterexample :
    cpuList (strBytes "5-3") = [(5, 3)] ∧ ¬(5 ≤ 3) :=
  ⟨by decide, by decide⟩

/-- Claim C5 as amended: a single bare number parses to the singleton
range `{n, n}` (first conjunct, for every non-empty all-digit input), and
a `from-to` pair is stored verbatim with no ordering check, so `from ≤ to`
holds only when the input is ordered ("42-666" gives `(42, 666)` but
"5-3" gives `(5, 3)`). -/
theorem cpuList_bare_number_and_verbatim_ranges :
    (∀ b, b ≠ [] → (∀ c ∈ b, isDigitByte c = true) →
        cpuList b = [(digitsVal b 0, digitsVal b 0)])
    ∧ cpuList (strBytes "42-666") = [(42, 666)]
    ∧ cpuList (strBytes "5-3") = [(5, 3)] := by
  refine ⟨?_, by decide, by decide⟩
  intro b hne hdig
  have hlen : 0 < b.length := List.length_pos.mpr hne
  have hd0 : isDigitByte (b.getD 0 0) = true := by
    apply hdig
    rw [List.getD_eq_getElem b 0 hlen]
    exact List.getElem_mem hlen
  have hok : (bytestring.Uint64 b 0).1.2 = true := (Uint64_parse_spec b 0).1.mpr ⟨hlen, hd0⟩
  have hrun : digitRun b 0 = b := by
    unfold digitRun
    rw [List.drop_zero]
    exact List.takeWhile_eq_self_iff.mpr hdig
  have hcons := (Uint64_parse_spec b 0).2.1 hok
  rcases hX : bytestring.Uint64 b 0 with ⟨⟨n, ok⟩, p⟩
  rw [hX] at hok hcons
  simp only at hok hcons
  subst hok
  have hp : p = b.length := by
    have := hcons.1
    rw [hrun] at this
    omega
  have hn : n = digitsVal b 0 := hcons.2
  subst hp
  subst hn
  have heol0 : bytestring.EOL b 0 = false := by
    simp only [bytestring.EOL, decide_eq_false_iff_not]
    omega
  have heol1 : bytestring.EOL b b.length = true := by
    simp only [bytestring.EOL, ge_iff_le, decide_eq_true_eq]
    omega
  simp only [cpuList, cpuListAux, heol0, hX, heol1, Bool.false_eq_true, if_false, if_true,
    List.nil_append]

/-- Witness for the amended claim C5 at the bare number "666". -/
theorem cpuList_bare_number_witness :
    cpuList (strBytes "666") = [(digitsVal (strBytes "666") 0, digitsVal (strBytes "666") 0)] :=
  cpuList_bare_number_and_verbatim_ranges.1 (strBytes "666") (by decide) (by decide)

/-- Header-scanning loop of `cpuListFromProcInterrupts`: skip spaces (stop
at end of line), require the literal "CPU", parse the CPU number, store it
at `cpuNums[idx]` and continue. The source writes `cpuNums[idx]` without a
bounds check; when `idx` is out of range this is a Go runtime panic,
modelled by `GoResult.panic`. -/
def cpuHeaderLoop : Nat → List Nat → Nat → List Nat → Nat → GoResult (List Nat × Nat)
  | 0, _, _, cpuNums, idx => .ok (cpuNums, idx)
  | fuel + 1, b, pos, cpuNums, idx =>
    match bytestring.SkipSpace b pos with
    | (true, _) => .ok (cpuNums, idx)
    | (false, p1) =>
      match bytestring.SkipText b p1 (strBytes "CPU") with
      | (false, _) => .ok (cpuNums, idx)
      | (true, p2) =>
        match bytestring.Uint64 b p2 with
        | ((_, false), _) => .ok (cpuNums, idx)
        | ((cpuNum, true), p3) =>
          if idx < cpuNums.length then
            cpuHeaderLoop fuel b p3 (cpuNums.set idx cpuNum) (idx + 1)
          else .panic

/-- Embedding of `cpuListFromProcInterrupts`: the number of fields of the
header line determines the length of the CPU-number list (`make(CPUList,
numCPUs)`, modelled by `List.replicate numCPUs 0`); the scanning loop then
fills it, and the result is kept only when the number of recognized
`CPU<n>` tokens equals the field count (otherwise `nil`, modelled by
`[]`). -/
def cpuListFromProcInterrupts (b : List Nat) : GoResult (List Nat) :=
  let numCPUs := bytestring.NumFields b 0
  if numCPUs = 0 then .ok []
  else
    match cpuHeaderLoop (b.length + 1) b 0 (List.replicate numCPUs 0) 0 with
    | .panic => .panic
    | .ok (cpuNums, idx) => if idx ≠ numCPUs then .ok [] else .ok cpuNums

example : cpuListFromProcInterrupts (strBytes "  CPU1  CPU42  CPU666 ") = .ok [1, 42, 666] := by
  decide
example : cpuListFromProcInterrupts (strBytes "") = .ok [] := by decide
example : cpuListFromProcInterrupts (strBytes "  FOO0 FOO1") = .ok [] := by decide
example : cpuListFromProcInterrupts (strBytes "  CPUA CPU42") = .ok [] := by decide

/-- Claim C3 is broken by a code bug: for a well-formed header the parser
does return the ordered CPU numbers (first conjunct), and for many
malformed headers it returns the empty list (third and fourth conjuncts);
but a header whose recognized `CPU<n>` tokens outnumber its
space-separated fields — such as "CPU1CPU2", one field but two recognized
tokens — makes the source write `cpuNums[idx]` past the end of the slice,
a Go runtime panic (index out of range), instead of producing the empty
sequence the claim describes. -/
theorem cpuListFromProcInterrupts_panic_bug :
    cpuListFromProcInterrupts (strBytes "  CPU1  CPU42  CPU666 ") = .ok [1, 42, 666]
    ∧ cpuListFromProcInterrupts (strBytes "CPU1CPU2") = .panic
    ∧ cpuListFromProcInterrupts (strBytes "  CPUA CPU42") = .ok []
    ∧ cpuListFromProcInterrupts (strBytes "") = .ok [] :=
  ⟨by decide, by decide, by decide, by decide⟩

/-- Embedding of the per-CPU counter record `IRQ` (irksome.go). The model
constructs a fresh record per emission; the source's reuse of the
`Counters` backing array across yields is a documented lifetime caveat
that does not change the yielded values. -/
structure IRQ where
  Num : Nat
  Counters : List Nat
  CPUs : List Nat
deriving Repr, DecidableEq

/-- Loop of Go's `slices.BinarySearch` (used by `iterateAllCounters` for
the IRQ allow-list): lower-bound search, `h := (i+j)/2` per step. -/
def bsearchLoop : Nat → List Nat → Nat → Nat → Nat → Nat
  | 0, _, _, i, _ => i
  | fuel + 1, xs, target, i, j =>
    if i < j then
      let h := (i + j) / 2
      if xs.getD h 0 < target then bsearchLoop fuel xs target (h + 1) j
      else bsearchLoop fuel xs target i h
    else i

/-- Embedding of Go's `slices.BinarySearch`: returns the lower-bound
insertion position and whether the element at that position equals the
target. -/
def binarySearch (xs : List Nat) (target : Nat) : Nat × Bool :=
  let i := bsearchLoop (xs.length + 1) xs target 0 xs.length
  (i, decide (i < xs.length ∧ xs.getD i 0 = target))

example : binarySearch [1, 666] 666 = (1, true) := by decide
example : binarySearch [1, 666] 42 = (1, false) := by decide
example : binarySearch [] 1 = (0, false) := by decide

/-- Outcome of handling one data line of the counter table: stop the whole
stream (`fatal`, the `return` paths of `iterateAllCounters`), skip just
this row (`skip`, the allow-list `continue`), or produce a record. -/
inductive RowResult : Type
| fatal : RowResult
| skip : RowResult
| row (num : Nat) (counters : List Nat) : RowResult
deriving Repr, DecidableEq

/-- Embedding of the counter-consuming loop of `iterateAllCounters` (`for
idx := 0; idx < numCPUs; idx++`): per expected column, skip spaces (the
whole stream fails if end-of-line is reached) and parse an unsigned
counter (failure is also stream-fatal). Returns the counters in column
order. -/
def countersLoop (b : List Nat) : Nat → Nat → Option (List Nat)
  | _, 0 => some []
  | pos, n + 1 =>
    match bytestring.SkipSpace b pos with
    | (true, _) => none
    | (false, p1) =>
      match bytestring.Uint64 b p1 with
      | ((_, false), _) => none
      | ((count, true), p2) =>
        match countersLoop b p2 n with
        | none => none
        | some cs => some (count :: cs)

/-- Embedding of the body of the `for sc.Scan()` loop of
`iterateAllCounters` for one data line: leading spaces followed by end of
line, a missing leading unsigned integer, or a missing `':'` end the whole
stream; a parsed IRQ number absent from a supplied allow-list skips just
this row before any counter is parsed; otherwise the `numCPUs` counters
are consumed (any failure there is stream-fatal) and a record is
produced. -/
def parseRow (numCPUs : Nat) (irqnums : Option (List Nat)) (line : List Nat) : RowResult :=
  match bytestring.SkipSpace line 0 with
  | (true, _) => .fatal
  | (false, p1) =>
    match bytestring.Uint64 line p1 with
    | ((_, false), _) => .fatal
    | ((irqno, true), p2) =>
      match bytestring.SkipText line p2 (strBytes ":") with
      | (false, _) => .fatal
      | (true, p3) =>
        if (match irqnums with
          | none => true
          | some ns => (binarySearch ns irqno).2 : Bool) then
          match countersLoop line p3 numCPUs with
          | none => .fatal
          | some cs => .row irqno cs
        else .skip

/-- Embedding of the data-line loop of `iterateAllCounters`: lines are the
scanner's tokens; a fatal row ends the stream, a skipped row continues,
and a parsed row is emitted with the fixed online-CPU list. -/
def processRows (cpus : List Nat) (irqnums : Option (List Nat)) : List (List Nat) → List IRQ
  | [] => []
  | line :: rest =>
    match parseRow cpus.length irqnums line with
    | .fatal => []
    | .skip => processRows cpus irqnums rest
    | .row num cs => { Num := num, Counters := cs, CPUs := cpus } :: processRows cpus irqnums rest

/-- Embedding of `iterateAllCounters` (and thus of `allCounters`): the
input byte stream is modelled as the list of lines produced by the
`bufio.Scanner`; the first line is the header, and a header yielding no
CPUs produces the empty sequence. A header that makes
`cpuListFromProcInterrupts` panic propagates the panic. -/
def allCounters (lines : List (List Nat)) (irqnums : Option (List Nat)) : GoResult (List IRQ) :=
  match lines with
  | [] => .ok []
  | header :: rest =>
    match cpuListFromProcInterrupts header with
    | .panic => .panic
    | .ok cpus => if cpus.length = 0 then .ok [] else .ok (processRows cpus irqnums rest)

example : allCounters [strBytes " CPU1 CPU42 CPU666", strBytes " 1: 2 3 4 x",
    strBytes " 5: 6 7 8 y", strBytes " ENEMIH: 1 2 3 zz"] none =
    .ok [{ Num := 1, Counters := [2, 3, 4], CPUs := [1, 42, 666] },
      { Num := 5, Counters := [6, 7, 8], CPUs := [1, 42, 666] }] := by decide
example : allCounters [strBytes ""] none = .ok [] := by decide
example : allCounters [strBytes " CPU1 CPU2", strBytes " 1"] none = .ok [] := by decide
example : allCounters [strBytes " CPU1 CPU2", strBytes " 1: 2"] none = .ok [] := by decide
example : allCounters [strBytes " CPU1 CPU2", strBytes " 1: 2 "] none = .ok [] := by decide
example : allCounters [strBytes " CPU1 CPU2", strBytes " 1: 2 abc"] none = .ok [] := by decide
example : allCounters [strBytes " CPU1 CPU2", strBytes " 1: 2abc 3"] none = .ok [] := by decide
example : allCounters [strBytes " CPU1 CPU42 CPU666", strBytes " 1: 2 3 4 x",
    strBytes " 42: 6 7 8 y", strBytes " 666: 9 10 11 z", strBytes " 888: 21 22 23 abc"]
    (some [1, 666]) =
    .ok [{ Num := 1, Counters := [2, 3, 4], CPUs := [1, 42, 666] },
      { Num := 666, Counters := [9, 10, 11], CPUs := [1, 42, 666] }] := by decide

/-- Helper: a successful counter loop returns exactly as many counters as
expected columns. -/
theorem countersLoop_length (b : List Nat) :
    ∀ (n : Nat) (pos : Nat) (cs : List Nat), countersLoop b pos n = some cs → cs.length = n := by
  intro n
  induction n with
  | zero =>
    intro pos cs h
    simp only [countersLoop, Option.some.injEq] at h
    rw [← h]
    rfl
  | succ n ih =>
    intro pos cs h
    unfold countersLoop at h
    split at h
    · exact Option.noConfusion h
    · split at h
      · exact Option.noConfusion h
      · split at h
        · exact Option.noConfusion h
        · rename_i cs1 hcl
          simp only [Option.some.injEq] at h
          rw [← h, List.length_cons, ih _ cs1 hcl]

/-- Helper inversion for a produced row: the counters were produced by the
counter loop (hence have the expected length), and under an allow-list the
binary search must have reported the IRQ number as found. -/
theorem parseRow_row_inv (n : Nat) (irqnums : Option (List Nat)) (line : List Nat)
    (v : Nat) (cs : List Nat) (h : parseRow n irqnums line = .row v cs) :
    cs.length = n ∧ ∀ ms, irqnums = some ms → (binarySearch ms v).2 = true := by
  unfold parseRow at h
  split at h
  · exact RowResult.noConfusion h
  · split at h
    · exact RowResult.noConfusion h
    · split at h
      · exact RowResult.noConfusion h
      · split at h
        · split at h
          · exact RowResult.noConfusion h
          · rename_i hcond xscr cs1 hcl
            injection h with hv hcs
            subst hv
            subst hcs
            refine ⟨countersLoop_length line n _ cs1 hcl, ?_⟩
            intro ms hms
            rw [hms] at hcond
            exact hcond
        · exact RowResult.noConfusion h

/-- Claim C2: a data line on which row parsing fails fatally (all-space
line, missing leading number, missing `':'`, or a failure among the
expected counters) ends the produced sequence: whatever follows the bad
line contributes nothing, and the records produced from the lines before
it are exactly those produced as if the input ended there. -/
theorem processRows_fatal_stops_stream :
    ∀ (cpus : List Nat) (irqnums : Option (List Nat)) (bad : List Nat)
      (pre rest : List (List Nat)),
      parseRow cpus.length irqnums bad = .fatal →
      processRows cpus irqnums (pre ++ bad :: rest) = processRows cpus irqnums pre := by
  intro cpus irqnums bad pre rest hbad
  induction pre with
  | nil => simp only [List.nil_append, processRows, hbad]
  | cons l pre ih =>
    rcases hp : parseRow cpus.length irqnums l with _ | _ | ⟨v, cs⟩
    · simp only [List.cons_append, processRows, hp]
    · simp only [List.cons_append, processRows, hp]
      exact ih
    · simp only [List.cons_append, processRows, hp]
      exact congrArg (List.cons { Num := v, Counters := cs, CPUs := cpus }) ih

/-- Witness for claim C2 with the repo's own test data: the architecture
specific " ENEMIH:" line is fatal, so the trailing valid line after it is
never parsed and only the prefix's records are produced. -/
theorem processRows_fatal_stops_stream_witness :
    processRows [1, 42, 666] none
        ([strBytes " 1: 2 3 4 x"] ++ strBytes " ENEMIH: 1 2 3 zz" :: [strBytes " 5: 6 7 8 y"])
      = processRows [1, 42, 666] none [strBytes " 1: 2 3 4 x"] :=
  processRows_fatal_stops_stream [1, 42, 666] none (strBytes " ENEMIH: 1 2 3 zz")
    [strBytes " 1: 2 3 4 x"] [strBytes " 5: 6 7 8 y"] (by decide)

/-- Claim C6: when the header parses into a non-empty CPU list with k
entries, every record the row loop emits carries that CPU list and exactly
k counters, so `len(Counters) = len(CPUs) = k`. -/
theorem emitted_record_lengths :
    ∀ (header : List Nat) (rest : List (List Nat)) (irqnums : Option (List Nat))
      (cpus : List Nat) (r : IRQ),
      cpuListFromProcInterrupts header = .ok cpus → cpus ≠ [] →
      r ∈ processRows cpus irqnums rest →
      r.CPUs = cpus ∧ r.Counters.length = cpus.length ∧ r.CPUs.length = cpus.length := by
  intro header rest irqnums cpus r hheader hne
  induction rest with
  | nil =>
    intro hmem
    exact absurd hmem (List.not_mem_nil r)
  | cons l rest ih =>
    intro hmem
    rcases hp : parseRow cpus.length irqnums l with _ | _ | ⟨v, cs⟩
    · simp only [processRows, hp] at hmem
      exact absurd hmem (List.not_mem_nil r)
    · simp only [processRows, hp] at hmem
      exact ih hmem
    · simp only [processRows, hp, List.mem_cons] at hmem
      rcases hmem with rfl | hmem
      · have hinv := parseRow_row_inv cpus.length irqnums l v cs hp
        exact ⟨rfl, hinv.1, rfl⟩
      · exact ih hmem

/-- Witness for claim C6 at the repo's test input: the record for IRQ 1
carries the three header CPUs and three counters. -/
theorem emitted_record_lengths_witness :
    ({ Num := 1, Counters := [2, 3, 4], CPUs := [1, 42, 666] } : IRQ).CPUs = [1, 42, 666]
    ∧ ({ Num := 1, Counters := [2, 3, 4], CPUs := [1, 42, 666] } : IRQ).Counters.length
        = ([1, 42, 666] : List Nat).length
    ∧ ({ Num := 1, Counters := [2, 3, 4], CPUs := [1, 42, 666] } : IRQ).CPUs.length
        = ([1, 42, 666] : List Nat).length :=
  emitted_record_lengths (strBytes " CPU1 CPU42 CPU666") [strBytes " 1: 2 3 4 x"] none
    [1, 42, 666] { Num := 1, Counters := [2, 3, 4], CPUs := [1, 42, 666] }
    (by decide) (by decide) (by decide)

/-- Helper: in an ascending-sorted list, values at indices are monotone
under `getD`. -/
theorem sorted_getD_mono (ns : List Nat) (hs : List.Sorted (· ≤ ·) ns) :
    ∀ k1 k2, k1 ≤ k2 → k2 < ns.length → ns.getD k1 0 ≤ ns.getD k2 0 := by
  intro k1 k2 h12 h2
  have h1 : k1 < ns.length := by omega
  rw [List.getD_eq_get ns 0 h1, List.getD_eq_get ns 0 h2]
  exact hs.rel_get_of_le h12

/-- Helper invariant of the Go binary-search loop: starting from bounds
whose outsides are already classified (below the lower bound everything is
smaller than the target, from the upper bound on nothing is), the loop
returns the lower-bound position, classifying the whole list. -/
theorem bsearchLoop_inv :
    ∀ (fuel : Nat) (xs : List Nat) (t i j : Nat),
      (∀ k1 k2, k1 ≤ k2 → k2 < xs.length → xs.getD k1 0 ≤ xs.getD k2 0) →
      j ≤ xs.length → i ≤ j → j - i < fuel →
      (∀ k, k < i → xs.getD k 0 < t) →
      (∀ k, j ≤ k → k < xs.length → ¬xs.getD k 0 < t) →
      i ≤ bsearchLoop fuel xs t i j ∧ bsearchLoop fuel xs t i j ≤ j
      ∧ (∀ k, k < bsearchLoop fuel xs t i j → xs.getD k 0 < t)
      ∧ (∀ k, bsearchLoop fuel xs t i j ≤ k → k < xs.length → ¬xs.getD k 0 < t) := by
  intro fuel
  induction fuel with
  | zero => intro xs t i j _ _ _ hf _ _; omega
  | succ fuel ih =>
    intro xs t i j hmono hj hij hf hlow hhigh
    by_cases hlt : i < j
    · have hh1 : i ≤ (i + j) / 2 := by omega
      have hh2 : (i + j) / 2 < j := by omega
      by_cases hcmp : xs.getD ((i + j) / 2) 0 < t
      · have hrec := ih xs t ((i + j) / 2 + 1) j hmono hj (by omega) (by omega)
          (fun k hk => by
            by_cases hki : k ≤ (i + j) / 2
            · exact lt_of_le_of_lt (hmono k ((i + j) / 2) hki (by omega)) hcmp
            · exact absurd hk (by omega))
          hhigh
        have hgoal : bsearchLoop (fuel + 1) xs t i j = bsearchLoop fuel xs t ((i + j) / 2 + 1) j := by
          simp only [bsearchLoop, if_pos hlt, if_pos hcmp]
        rw [hgoal]
        exact ⟨by omega, hrec.2.1, hrec.2.2.1, hrec.2.2.2⟩
      · have hrec := ih xs t i ((i + j) / 2) hmono (by omega) (by omega) (by omega) hlow
          (fun k hk hklen => fun hcon =>
            hcmp (lt_of_le_of_lt (hmono ((i + j) / 2) k hk hklen) hcon))
        have hgoal : bsearchLoop (fuel + 1) xs t i j = bsearchLoop fuel xs t i ((i + j) / 2) := by
          simp only [bsearchLoop, if_pos hlt, if_neg hcmp]
        rw [hgoal]
        exact ⟨hrec.1, by omega, hrec.2.2.1, hrec.2.2.2⟩
    · have hgoal : bsearchLoop (fuel + 1) xs t i j = i := by
        simp only [bsearchLoop, if_neg hlt]
      rw [hgoal]
      have hij2 : i = j := by omega
      subst hij2
      exact ⟨le_refl i, le_refl i, hlow, hhigh⟩

/-- Helper soundness of the embedded `slices.BinarySearch`: a reported
find means the element really is in the list (no sortedness needed). -/
theorem binarySearch_found_mem (xs : List Nat) (t : Nat)
    (h : (binarySearch xs t).2 = true) : t ∈ xs := by
  unfold binarySearch at h
  simp only [decide_eq_true_eq] at h
  obtain ⟨hlt, hget⟩ := h
  rw [List.getD_eq_getElem xs 0 hlt] at hget
  rw [← hget]
  exact List.getElem_mem hlt

/-- Helper completeness of the embedded `slices.BinarySearch` on an
ascending-sorted list: a present element is always found. -/
theorem binarySearch_mem_found (xs : List Nat) (t : Nat)
    (hs : List.Sorted (· ≤ ·) xs) (hmem : t ∈ xs) : (binarySearch xs t).2 = true := by
  have hmono := sorted_getD_mono xs hs
  have hinv := bsearchLoop_inv (xs.length + 1) xs t 0 xs.length hmono (le_refl _)
    (Nat.zero_le _) (by omega) (fun k hk => absurd hk (by omega))
    (fun k hk hklen => absurd hklen (by omega))
  obtain ⟨m, hm, hgm⟩ := List.mem_iff_getElem.mp hmem
  set r := bsearchLoop (xs.length + 1) xs t 0 xs.length with hr
  have hmr : r ≤ m := by
    by_contra hcon
    push_neg at hcon
    have := hinv.2.2.1 m hcon
    rw [List.getD_eq_getElem xs 0 hm, hgm] at this
    omega
  have hrlen : r < xs.length := by omega
  have hge : ¬xs.getD r 0 < t := hinv.2.2.2 r (le_refl r) hrlen
  have hle : xs.getD r 0 ≤ t := by
    have := hmono r m hmr hm
    rw [List.getD_eq_getElem xs 0 hm, hgm] at this
    exact this
  unfold binarySearch
  simp only [decide_eq_true_eq]
  rw [← hr]
  exact ⟨hrlen, by omega⟩

/-- Helper: filtering only changes whether a fully well-formed row is
emitted or skipped. The leading number, `':'` and counters are parsed
identically with or without an allow-list; the binary-search test happens
after the `':'` and before any counter is consumed. -/
theorem parseRow_filter_rel (n : Nat) (ms : List Nat) (line : List Nat) (v : Nat)
    (cs : List Nat) (h : parseRow n none line = .row v cs) :
    parseRow n (some ms) line = if (binarySearch ms v).2 = true then .row v cs else .skip := by
  unfold parseRow at h ⊢
  split at h
  · exact RowResult.noConfusion h
  · split at h
    · exact RowResult.noConfusion h
    · split at h
      · exact RowResult.noConfusion h
      · split at h
        · split at h
          · exact RowResult.noConfusion h
          · injection h with hv hcs
            subst hv
            subst hcs
            rfl
        · exact RowResult.noConfusion h

/-- Helper discriminator: did row parsing produce a record? -/
def RowResult.isRow : RowResult → Bool
  | .row _ _ => true
  | _ => false

/-- Claim C4: under an allow-list every produced record's IRQ number is in
the list (first conjunct, with no sortedness needed for this direction);
for ascending-sorted allow-lists and fully well-formed rows the produced
sequence is exactly the unfiltered sequence restricted to listed IRQ
numbers, in input-line order (second conjunct); and on the spec's example
(extended with garbage counters in the unlisted row 42, which are never
parsed) the output is exactly the records for IRQs 1 and 666, in that
order (third conjunct). -/
theorem allowlist_filter_exact :
    (∀ (ns cpus : List Nat) (lines : List (List Nat)) (r : IRQ),
        r ∈ processRows cpus (some ns) lines → r.Num ∈ ns)
    ∧ (∀ (ns cpus : List Nat) (lines : List (List Nat)),
        List.Sorted (· ≤ ·) ns →
        (∀ l ∈ lines, (parseRow cpus.length none l).isRow = true) →
        processRows cpus (some ns) lines
          = (processRows cpus none lines).filter (fun r => decide (r.Num ∈ ns)))
    ∧ processRows [1, 42, 666] (some [1, 666])
        [strBytes " 1: 2 3 4 x", strBytes " 42: GARBAGE", strBytes " 666: 9 10 11 z",
          strBytes " 888: 21 22 23 abc"]
        = [{ Num := 1, Counters := [2, 3, 4], CPUs := [1, 42, 666] },
           { Num := 666, Counters := [9, 10, 11], CPUs := [1, 42, 666] }] := by
  refine ⟨?_, ?_, by decide⟩
  · intro ns cpus lines
    induction lines with
    | nil =>
      intro r hmem
      exact absurd hmem (List.not_mem_nil r)
    | cons l rest ih =>
      intro r hmem
      rcases hp : parseRow cpus.length (some ns) l with _ | _ | ⟨v, cs⟩
      · simp only [processRows, hp] at hmem
        exact absurd hmem (List.not_mem_nil r)
      · simp only [processRows, hp] at hmem
        exact ih r hmem
      · simp only [processRows, hp, List.mem_cons] at hmem
        rcases hmem with rfl | hmem
        · have hfound := (parseRow_row_inv cpus.length (some ns) l v cs hp).2 ns rfl
          exact binarySearch_found_mem ns v hfound
        · exact ih r hmem
  · intro ns cpus lines hsorted
    induction lines with
    | nil =>
      intro _
      rfl
    | cons l rest ih =>
      intro hwf
      have hl := hwf l (List.mem_cons_self l rest)
      rcases hrow : parseRow cpus.length none l with _ | _ | ⟨v, cs⟩
      · rw [hrow] at hl
        exact absurd hl (by simp [RowResult.isRow])
      · rw [hrow] at hl
        exact absurd hl (by simp [RowResult.isRow])
      · have hrel := parseRow_filter_rel cpus.length ns l v cs hrow
        have ihr := ih (fun l2 hl2 => hwf l2 (List.mem_cons_of_mem l hl2))
        by_cases hf : (binarySearch ns v).2 = true
        · have hmem : v ∈ ns := binarySearch_found_mem ns v hf
          simp only [hf, if_true] at hrel
          simp only [processRows, hrel, hrow]
          rw [List.filter_cons_of_pos (by simpa using hmem), ihr]
        · have hnmem : v ∉ ns := fun hc => hf (binarySearch_mem_found ns v hsorted hc)
          rw [if_neg hf] at hrel
          simp only [processRows, hrel, hrow]
          rw [List.filter_cons_of_neg (by simpa using hnmem), ihr]

/-- Witness for claim C4 at a one-row instance with the sorted allow-list
[1, 666]: the filtered run equals the unfiltered run restricted to listed
IRQ numbers. -/
theorem allowlist_filter_exact_witness :
    processRows [1, 42, 666] (some [1, 666]) [strBytes " 1: 2 3 4 x"]
      = (processRows [1, 42, 666] none [strBytes " 1: 2 3 4 x"]).filter
          (fun r => decide (r.Num ∈ ([1, 666] : List Nat))) :=
  allowlist_filter_exact.2.1 [1, 666] [1, 42, 666] [strBytes " 1: 2 3 4 x"]
    (by decide) (by decide)

/-- Directory entry as delivered by the directory-listing capability
(`os.File.ReadDir` / `faf.ReadDir`). -/
structure DirEntry where
  name : String
  isDir : Bool
deriving Repr, DecidableEq

/-- Embedding of `IRQDetails` (irksome_details.go): `Actions` holds the
bytes of the actions pseudo-file with the trailing newline stripped (the
Go `string` is byte-for-byte this content), `Affinities` the parsed CPU
ranges. -/
structure IRQDetails where
  Num : Nat
  Actions : List Nat
  Affinities : List (Nat × Nat)
deriving Repr, DecidableEq

def syskernelirqPath : String := "/sys/kernel/irq/"

def procirqPath : String := "/proc/irq/"

def actionsNode : String := "/actions"

def effectiveAffinityNode : String := "/effective_affinity_list"

/-- Modelled external capability: `faf.ParseUint` (and `strconv.ParseUint`
in the sequential reference) applied to a directory name, per the spec's
"parses it as an IRQ number (skip on failure)": a non-empty all-digit
name parses to its decimal value in `uint64` arithmetic, anything else
fails. -/
def parseUintName (s : String) : Option Nat :=
  let cs := s.data.map Char.toNat
  if cs ≠ [] ∧ cs.all isDigitByte then some (digitsVal cs 0) else none

/-- Embedding of the per-name body of the `readDetails` worker
(irksome_details.go lines 119-142), which is also, byte for byte, the
per-entry body of `AllIRQDetailsTraditional`: parse the name as the IRQ
number, read the actions file (must exist, be non-empty and
newline-terminated), strip the newline into `Actions`, read the
effective-affinity file under the same conditions, parse it with
`cpuList`, and drop the IRQ when the range list is empty. The file-reading
capability (`faf.ReadFile` / `os.ReadFile`) is the abstract map `fs` from
path to contents. -/
def workerStep (fs : String → Option (List Nat)) (root : String) (name : String) :
    Option IRQDetails :=
  match parseUintName name with
  | none => none
  | some irqnum =>
    match fs (root ++ syskernelirqPath ++ name ++ actionsNode) with
    | none => none
    | some contents =>
      if contents.length < 1 ∨ contents.getD (contents.length - 1) 0 ≠ 10 then none
      else
        match fs (root ++ procirqPath ++ name ++ effectiveAffinityNode) with
        | none => none
        | some c2 =>
          if c2.length < 1 ∨ c2.getD (c2.length - 1) 0 ≠ 10 then none
          else
            if cpuList (c2.take (c2.length - 1)) = [] then none
            else
              some ⟨irqnum, contents.take (contents.length - 1),
                cpuList (c2.take (c2.length - 1))⟩

/-- Embedding of one iteration of the entry loop shared by
`AllIRQDetailsTraditional` and the old sequential `allIRQDetails`:
non-directories are skipped, directories go through `workerStep`. -/
def processEntry (fs : String → Option (List Nat)) (root : String) (e : DirEntry) :
    Option IRQDetails :=
  if e.isDir then workerStep fs root e.name else none

/-- Embedding of the sequential reference `AllIRQDetailsTraditional`
(yield always accepted): records in directory-enumeration order. -/
def detailsTraditional (fs : String → Option (List Nat)) (root : String)
    (entries : List DirEntry) : List IRQDetails :=
  entries.filterMap (processEntry fs root)

/-- Records produced by the workers of the concurrent `allIRQDetails`
pipeline: the producer pushes the names of directory entries only, and
each worker runs `workerStep` on a name. This is the multiset sent into
the detail channel; the arrival order at the consumer is scheduling
dependent. -/
def workerRecords (fs : String → Option (List Nat)) (root : String)
    (entries : List DirEntry) : List IRQDetails :=
  (entries.filter (fun e => e.isDir)).filterMap (fun e => workerStep fs root e.name)

/-- Embedding of the consumer loop of the concurrent `allIRQDetails`: it
pulls records and stops at the first one whose `Actions` is the empty
string, because the zero value received from the closed channel has empty
`Actions`; records arriving after such a record are never yielded. Applied
to the arrival order of the worker records. -/
def consumeDetails (arrival : List IRQDetails) : List IRQDetails :=
  arrival.takeWhile (fun d => decide (d.Actions ≠ []))

/-- Bad-entry conditions of claim C7 for a directory name: non-numeric
name, or missing/empty/non-newline-terminated actions or
effective-affinity file, or an empty parsed affinity range list. -/
def badDetailEntry (fs : String → Option (List Nat)) (root : String) (name : String) : Prop :=
  parseUintName name = none
  ∨ fs (root ++ syskernelirqPath ++ name ++ actionsNode) = none
  ∨ (∃ c, fs (root ++ syskernelirqPath ++ name ++ actionsNode) = some c
      ∧ (c.length < 1 ∨ c.getD (c.length - 1) 0 ≠ 10))
  ∨ fs (root ++ procirqPath ++ name ++ effectiveAffinityNode) = none
  ∨ (∃ c, fs (root ++ procirqPath ++ name ++ effectiveAffinityNode) = some c
      ∧ (c.length < 1 ∨ c.getD (c.length - 1) 0 ≠ 10))
  ∨ (∃ c, fs (root ++ procirqPath ++ name ++ effectiveAffinityNode) = some c
      ∧ cpuList (c.take (c.length - 1)) = [])

/-- Helper: every bad-entry condition makes the worker body produce no
record at all for that name. -/
theorem workerStep_none_of_bad (fs : String → Option (List Nat)) (root : String)
    (name : String) (hbad : badDetailEntry fs root name) : workerStep fs root name = none := by
  unfold workerStep
  rcases hp : parseUintName name with _ | irqnum
  · simp only [hp]
  · rcases ha : fs (root ++ syskernelirqPath ++ name ++ actionsNode) with _ | c1
    · simp only [hp, ha]
    · by_cases hc1 : c1.length < 1 ∨ c1.getD (c1.length - 1) 0 ≠ 10
      · simp only [hp, ha, if_pos hc1]
      · rcases hf : fs (root ++ procirqPath ++ name ++ effectiveAffinityNode) with _ | c2
        · simp only [hp, ha, if_neg hc1, hf]
        · by_cases hc2 : c2.length < 1 ∨ c2.getD (c2.length - 1) 0 ≠ 10
          · simp only [hp, ha, if_neg hc1, hf, if_pos hc2]
          · by_cases hl : cpuList (c2.take (c2.length - 1)) = []
            · simp only [hp, ha, if_neg hc1, hf, if_neg hc2, if_pos hl]
            · exfalso
              rcases hbad with h | h | ⟨c, hc, hcond⟩ | h | ⟨c, hc, hcond⟩ | ⟨c, hc, hcond⟩
              · rw [hp] at h
                exact Option.noConfusion h
              · rw [ha] at h
                exact Option.noConfusion h
              · rw [ha] at hc
                injection hc with hceq
                subst hceq
                exact hc1 hcond
              · rw [hf] at h
                exact Option.noConfusion h
              · rw [hf] at hc
                injection hc with hceq
                subst hceq
                exact hc2 hcond
              · rw [hf] at hc
                injection hc with hceq
                subst hceq
                exact hl hcond

/-- Claim C7: an entry whose name is not a decimal number, or whose
actions or effective-affinity file is missing, empty, or not
newline-terminated, or whose parsed affinity range list is empty,
produces no record at all (first conjunct) and is dropped from the
collection without affecting any other entry, in the sequential reference
order (second conjunct) and in the multiset the concurrent workers
produce (third conjunct). -/
theorem detail_entry_skip_local :
    (∀ fs root name, badDetailEntry fs root name → workerStep fs root name = none)
    ∧ (∀ fs root (e : DirEntry) pre post, badDetailEntry fs root e.name →
        detailsTraditional fs root (pre ++ e :: post) = detailsTraditional fs root (pre ++ post))
    ∧ (∀ fs root (e : DirEntry) pre post, badDetailEntry fs root e.name →
        workerRecords fs root (pre ++ e :: post) = workerRecords fs root (pre ++ post)) := by
  refine ⟨workerStep_none_of_bad, ?_, ?_⟩
  · intro fs root e pre post hbad
    have hnone : processEntry fs root e = none := by
      unfold processEntry
      split
      · exact workerStep_none_of_bad fs root e.name hbad
      · rfl
    unfold detailsTraditional
    rw [List.filterMap_append, List.filterMap_append, List.filterMap_cons_none hnone]
  · intro fs root e pre post hbad
    have hnone : workerStep fs root e.name = none := workerStep_none_of_bad fs root e.name hbad
    unfold workerRecords
    rw [List.filter_append, List.filter_append]
    by_cases hd : e.isDir = true
    · rw [List.filter_cons_of_pos (by simpa using hd), List.filterMap_append,
        List.filterMap_append]
      simp only [List.filterMap_cons, hnone]
    · rw [List.filter_cons_of_neg (by simpa using hd)]

/-- Witness for claim C7: the non-numeric entry name "foo" is dropped and
the collection over the remaining entries is unchanged, on a filesystem
with no readable files. -/
theorem detail_entry_skip_local_witness :
    detailsTraditional (fun _ => none) "" ([] ++ ⟨"foo", true⟩ :: [⟨"42", true⟩])
      = detailsTraditional (fun _ => none) "" ([] ++ [⟨"42", true⟩]) :=
  detail_entry_skip_local.2.1 (fun _ => none) "" ⟨"foo", true⟩ [] [⟨"42", true⟩]
    (Or.inl (by decide))

/-- Synthetic detail tree for claim C10: a single IRQ directory "7" whose
actions file consists of only a newline (an IRQ with zero registered
actions) and whose effective-affinity file is "0\n". -/
def fsEmptyActions : String → Option (List Nat) := fun p =>
  if p = "/sys/kernel/irq/7/actions" then some [10]
  else if p = "/proc/irq/7/effective_affinity_list" then some [48, 10] else none

/-- Claim C10 is broken by a code bug: on a tree whose only IRQ has an
empty (newline-only) actions file, the sequential reference
`AllIRQDetailsTraditional` yields that record (first conjunct) and the
concurrent pipeline's workers do produce it (second conjunct), but the
consumer loop of `allIRQDetails` mistakes its empty `Actions` for the
zero value read from the closed detail channel and terminates the stream
without yielding it (third conjunct), so the two record sets differ. -/
theorem pipeline_drops_empty_actions_record :
    detailsTraditional fsEmptyActions "" [⟨"7", true⟩]
      = [{ Num := 7, Actions := [], Affinities := [(0, 0)] }]
    ∧ workerRecords fsEmptyActions "" [⟨"7", true⟩]
      = [{ Num := 7, Actions := [], Affinities := [(0, 0)] }]
    ∧ consumeDetails (workerRecords fsEmptyActions "" [⟨"7", true⟩]) = [] :=
  ⟨by decide, by decide, by decide⟩
